import Mathlib

/-!
Verification of the Whisper client-side key-management and message-protection
core (frontend/src/utils/crypto.ts, frontend/src/components/Auth.tsx,
backend/src/server.ts, backend/src/db/schema.ts).

Modelling conventions.
Byte sequences (JS ArrayBuffer / Uint8Array contents) are lists of naturals
below 256.  Strings crossing the cryptographic boundary are represented by
their character-code sequences, also lists of naturals; plaintext message
strings are represented by their TextEncoder (UTF-8) byte sequences, the
TextEncoder/TextDecoder pair being modelled as the identity on that byte
representation.  Platform primitives that the source calls but does not
implement are modelled as ideal versions of the algorithms they name:
the platform base64 pair btoa/atob is implemented in full; AES-GCM is
modelled as an ideal authenticated cipher (keystream masking plus a
perfectly binding authentication tag, the idealisation of GCM's tag);
ECDH on P-256 is modelled as scalar arithmetic in the cyclic group of the
curve's order; PBKDF2 is modelled as an ideal (collision-free) derivation
from password and salt; the secure random source is an explicit tape with
a position, advanced by every draw.
-/

/-- Predicate stating that every element of the list is a byte value. -/
def isBytes (l : List Nat) : Prop := ∀ b ∈ l, b < 256

instance (l : List Nat) : Decidable (isBytes l) :=
  inferInstanceAs (Decidable (∀ b ∈ l, b < 256))

/-- Base64 alphabet of the platform btoa: maps a sextet (0..63) to its
character code. -/
def sextetToChar (n : Nat) : Nat :=
  if n < 26 then 65 + n
  else if n < 52 then 97 + (n - 26)
  else if n < 62 then 48 + (n - 52)
  else if n = 62 then 43
  else 47

/-- Inverse alphabet lookup used by the atob model (0 on characters outside
the alphabet; validity is checked separately). -/
def sextetOfChar (c : Nat) : Nat :=
  if c = 43 then 62
  else if c = 47 then 63
  else if 48 ≤ c ∧ c ≤ 57 then 52 + (c - 48)
  else if 65 ≤ c ∧ c ≤ 90 then c - 65
  else if 97 ≤ c ∧ c ≤ 122 then 26 + (c - 97)
  else 0

/-- Membership test for the Base64 alphabet. -/
def isB64Char (c : Nat) : Bool :=
  decide (c = 43 ∨ c = 47 ∨ (48 ≤ c ∧ c ≤ 57) ∨ (65 ≤ c ∧ c ≤ 90) ∨ (97 ≤ c ∧ c ≤ 122))

/-- Model of btoa applied to a byte sequence: standard Base64 with padding
(61 is the character code of the padding sign). -/
def b64encode : List Nat → List Nat
  | [] => []
  | [a] => [sextetToChar (a / 4), sextetToChar (a % 4 * 16), 61, 61]
  | [a, b] => [sextetToChar (a / 4), sextetToChar (a % 4 * 16 + b / 16), sextetToChar (b % 16 * 4), 61]
  | a :: b :: c :: rest =>
      sextetToChar (a / 4) :: sextetToChar (a % 4 * 16 + b / 16) ::
        sextetToChar (b % 16 * 4 + c / 64) :: sextetToChar (c % 64) :: b64encode rest

/-- Syntactic well-formedness of a padded Base64 text, as accepted by the
atob model. -/
def b64Valid : List Nat → Bool
  | [] => true
  | c1 :: c2 :: c3 :: c4 :: rest =>
      isB64Char c1 && isB64Char c2 &&
        (if c3 = 61 then c4 == 61 && rest.isEmpty
         else isB64Char c3 &&
           (if c4 = 61 then rest.isEmpty else isB64Char c4 && b64Valid rest))
  | _ => false

/-- Raw Base64 decoding, assuming well-formed input. -/
def b64decodeRaw : List Nat → List Nat
  | c1 :: c2 :: c3 :: c4 :: rest =>
      if c3 = 61 then [sextetOfChar c1 * 4 + sextetOfChar c2 / 16]
      else if c4 = 61 then
        [sextetOfChar c1 * 4 + sextetOfChar c2 / 16,
          sextetOfChar c2 % 16 * 16 + sextetOfChar c3 / 4]
      else
        (sextetOfChar c1 * 4 + sextetOfChar c2 / 16) ::
          (sextetOfChar c2 % 16 * 16 + sextetOfChar c3 / 4) ::
            (sextetOfChar c3 % 4 * 64 + sextetOfChar c4) :: b64decodeRaw rest
  | _ => []

/-- Model of atob: fails (as atob throws) on input it does not accept,
otherwise decodes. -/
def b64decode (s : List Nat) : Option (List Nat) :=
  if b64Valid s then some (b64decodeRaw s) else none

/-- Source function arrayBufferToBase64 (crypto.ts): reads the buffer bytes
into a character string and applies btoa. -/
def arrayBufferToBase64 (buffer : List Nat) : List Nat := b64encode buffer

/-- Source function base64ToArrayBuffer (crypto.ts): applies atob and reads
the character codes back into bytes. -/
def base64ToArrayBuffer (base64 : List Nat) : Option (List Nat) := b64decode base64

/-- Recursion principle following the byte-triple structure of Base64
encoding. -/
def b64rec {motive : List Nat → Prop} (h1 : motive []) (h2 : ∀ a, motive [a])
    (h3 : ∀ a b, motive [a, b])
    (h4 : ∀ a b c rest, motive rest → motive (a :: b :: c :: rest)) :
    ∀ l, motive l
  | [] => h1
  | [a] => h2 a
  | [a, b] => h3 a b
  | a :: b :: c :: rest => h4 a b c rest (b64rec h1 h2 h3 h4 rest)

theorem sextetOfChar_sextetToChar : ∀ n, n < 64 → sextetOfChar (sextetToChar n) = n := by decide

theorem isB64Char_sextetToChar : ∀ n, n < 64 → isB64Char (sextetToChar n) = true := by decide

theorem sextetToChar_ne_61 : ∀ n, n < 64 → sextetToChar n ≠ 61 := by decide

theorem b64Valid_encode : ∀ l : List Nat, isBytes l → b64Valid (b64encode l) = true := by
  intro l
  induction l using b64rec with
  | h1 => intro _; rfl
  | h2 a =>
      intro h
      have ha : a < 256 := h a (by simp)
      simp [b64encode, b64Valid,
        isB64Char_sextetToChar (a / 4) (by omega),
        isB64Char_sextetToChar (a % 4 * 16) (by omega),
        sextetToChar_ne_61 (a / 4) (by omega)]
  | h3 a b =>
      intro h
      have ha : a < 256 := h a (by simp)
      have hb : b < 256 := h b (by simp)
      simp [b64encode, b64Valid,
        isB64Char_sextetToChar (a / 4) (by omega),
        isB64Char_sextetToChar (a % 4 * 16 + b / 16) (by omega),
        isB64Char_sextetToChar (b % 16 * 4) (by omega),
        sextetToChar_ne_61 (b % 16 * 4) (by omega)]
  | h4 a b c rest ih =>
      intro h
      have ha : a < 256 := h a (by simp)
      have hb : b < 256 := h b (by simp)
      have hc : c < 256 := h c (by simp)
      have hrest : isBytes rest := fun x hx => h x (by simp [hx])
      simp [b64encode, b64Valid,
        isB64Char_sextetToChar (a / 4) (by omega),
        isB64Char_sextetToChar (a % 4 * 16 + b / 16) (by omega),
        isB64Char_sextetToChar (b % 16 * 4 + c / 64) (by omega),
        isB64Char_sextetToChar (c % 64) (by omega),
        sextetToChar_ne_61 (b % 16 * 4 + c / 64) (by omega),
        sextetToChar_ne_61 (c % 64) (by omega),
        ih hrest]

theorem b64decodeRaw_encode : ∀ l : List Nat, isBytes l → b64decodeRaw (b64encode l) = l := by
  intro l
  induction l using b64rec with
  | h1 => intro _; rfl
  | h2 a =>
      intro h
      have ha : a < 256 := h a (by simp)
      simp [b64encode, b64decodeRaw,
        sextetOfChar_sextetToChar (a / 4) (by omega),
        sextetOfChar_sextetToChar (a % 4 * 16) (by omega)]
      omega
  | h3 a b =>
      intro h
      have ha : a < 256 := h a (by simp)
      have hb : b < 256 := h b (by simp)
      simp [b64encode, b64decodeRaw,
        sextetToChar_ne_61 (b % 16 * 4) (by omega),
        sextetOfChar_sextetToChar (a / 4) (by omega),
        sextetOfChar_sextetToChar (a % 4 * 16 + b / 16) (by omega),
        sextetOfChar_sextetToChar (b % 16 * 4) (by omega)]
      omega
  | h4 a b c rest ih =>
      intro h
      have ha : a < 256 := h a (by simp)
      have hb : b < 256 := h b (by simp)
      have hc : c < 256 := h c (by simp)
      have hrest : isBytes rest := fun x hx => h x (by simp [hx])
      simp [b64encode, b64decodeRaw,
        sextetToChar_ne_61 (b % 16 * 4 + c / 64) (by omega),
        sextetToChar_ne_61 (c % 64) (by omega),
        sextetOfChar_sextetToChar (a / 4) (by omega),
        sextetOfChar_sextetToChar (a % 4 * 16 + b / 16) (by omega),
        sextetOfChar_sextetToChar (b % 16 * 4 + c / 64) (by omega),
        sextetOfChar_sextetToChar (c % 64) (by omega),
        ih hrest]
      omega

theorem b64_roundtrip (l : List Nat) (h : isBytes l) : b64decode (b64encode l) = some l := by
  simp [b64decode, b64Valid_encode l h, b64decodeRaw_encode l h]

/-- Injective encoding of a byte list (or any list of naturals) into a single
natural, built from the Cantor pairing function.  Used to model ideal
(collision-free) cryptographic maps over variable-length inputs. -/
def natListEncode : List Nat → Nat
  | [] => 0
  | b :: t => Nat.pair b (natListEncode t) + 1

theorem natListEncode_injective : Function.Injective natListEncode := by
  intro l1
  induction l1 with
  | nil =>
      intro l2 h
      cases l2 with
      | nil => rfl
      | cons b t => simp [natListEncode] at h
  | cons a t ih =>
      intro l2 h
      cases l2 with
      | nil => simp [natListEncode] at h
      | cons b t2 =>
          simp only [natListEncode, Nat.add_right_cancel_iff] at h
          rcases Nat.pair_eq_pair.mp h with ⟨h1, h2⟩
          rw [h1, ih h2]

/-- Fuel-bounded little-endian base-256 digit expansion (structurally
recursive so that it evaluates inside the kernel; the fuel is always taken
to be the number itself, which bounds the digit count). -/
def natToBytesAux : Nat → Nat → List Nat
  | _, 0 => []
  | 0, _ => []
  | fuel + 1, m => m % 256 :: natToBytesAux fuel (m / 256)

/-- Little-endian base-256 digits of a natural number; models the fixed
binary export (pkcs8 raw bytes) of a private-key scalar. -/
def natToBytes (n : Nat) : List Nat := natToBytesAux n n

/-- Reassembles a little-endian base-256 digit list into a natural number;
models the import of exported private-key bytes. -/
def bytesToNat : List Nat → Nat
  | [] => 0
  | b :: t => b + 256 * bytesToNat t

theorem bytesToNat_natToBytesAux :
    ∀ fuel n, n ≤ fuel → bytesToNat (natToBytesAux fuel n) = n := by
  intro fuel
  induction fuel with
  | zero =>
      intro n hn
      have : n = 0 := by omega
      subst this
      rfl
  | succ f ih =>
      intro n hn
      cases n with
      | zero => rfl
      | succ m =>
          have hdiv : (m + 1) / 256 < m + 1 := Nat.div_lt_self (by omega) (by omega)
          rw [show natToBytesAux (f + 1) (m + 1) =
              ((m + 1) % 256) :: natToBytesAux f ((m + 1) / 256) from rfl]
          rw [bytesToNat, ih ((m + 1) / 256) (by omega)]
          omega

theorem bytesToNat_natToBytes (n : Nat) : bytesToNat (natToBytes n) = n :=
  bytesToNat_natToBytesAux n n (Nat.le_refl n)

theorem natToBytesAux_isBytes : ∀ fuel n, isBytes (natToBytesAux fuel n) := by
  intro fuel
  induction fuel with
  | zero =>
      intro n b hb
      cases n with
      | zero => simp [show natToBytesAux 0 0 = [] from rfl] at hb
      | succ m => simp [show natToBytesAux 0 (m + 1) = [] from rfl] at hb
  | succ f ih =>
      intro n b hb
      cases n with
      | zero => simp [show natToBytesAux (f + 1) 0 = [] from rfl] at hb
      | succ m =>
          rw [show natToBytesAux (f + 1) (m + 1) =
              ((m + 1) % 256) :: natToBytesAux f ((m + 1) / 256) from rfl] at hb
          rcases List.mem_cons.mp hb with h1 | h2
          · omega
          · exact ih ((m + 1) / 256) b h2

theorem natToBytes_isBytes (n : Nat) : isBytes (natToBytes n) :=
  natToBytesAux_isBytes n n

/-- Secure random source of the platform (window.crypto.getRandomValues),
modelled as an infinite byte tape together with the position of the next
unread cell; every draw advances the position. -/
structure Rng where
  tape : Nat → Nat
  pos : Nat

/-- Model of window.crypto.getRandomValues on a fresh Uint8Array of length n:
returns the next n bytes of the tape and the advanced source. -/
def getRandomValues (n : Nat) (r : Rng) : List Nat × Rng :=
  ((List.range n).map (fun i => r.tape (r.pos + i) % 256), ⟨r.tape, r.pos + n⟩)

theorem getRandomValues_isBytes (n : Nat) (r : Rng) : isBytes (getRandomValues n r).1 := by
  intro b hb
  simp [getRandomValues] at hb
  rcases hb with ⟨i, _, hi⟩
  omega

theorem getRandomValues_length (n : Nat) (r : Rng) : (getRandomValues n r).1.length = n := by
  simp [getRandomValues]

/-- Keystream byte i of the AES-GCM model under a given key and iv.  The
concrete mixing is irrelevant to the proofs; only its byte range matters. -/
def ksByte (key : Nat) (iv : List Nat) (i : Nat) : Nat :=
  Nat.pair key (Nat.pair (natListEncode iv) i) % 256

/-- Keystream masking of a byte sequence, starting at stream index i.
Self-inverse, as in counter-mode encryption. -/
def maskBytes (key : Nat) (iv : List Nat) : Nat → List Nat → List Nat
  | _, [] => []
  | i, b :: t => (b ^^^ ksByte key iv i) :: maskBytes key iv (i + 1) t

/-- Ideal authentication tag over (key, iv, masked body): injective in all
three components.  This is the idealisation of the 128-bit GCM tag, whose
computational unforgeability the source relies on. -/
def gcmTag (key : Nat) (iv : List Nat) (body : List Nat) : Nat :=
  Nat.pair key (Nat.pair (natListEncode iv) (natListEncode body))

/-- Ciphertext produced by the AES-GCM model: the masked body bytes together
with the authentication tag. -/
structure SealedBox where
  body : List Nat
  tag : Nat

/-- Model of window.crypto.subtle.encrypt with AES-GCM. -/
def gcmEncrypt (key : Nat) (iv : List Nat) (pt : List Nat) : SealedBox :=
  ⟨maskBytes key iv 0 pt, gcmTag key iv (maskBytes key iv 0 pt)⟩

/-- Model of window.crypto.subtle.decrypt with AES-GCM: verifies the tag and
unmasks, failing closed (as subtle.decrypt rejects) on any mismatch. -/
def gcmDecrypt (key : Nat) (iv : List Nat) (ct : SealedBox) : Option (List Nat) :=
  if ct.tag = gcmTag key iv ct.body then some (maskBytes key iv 0 ct.body) else none

theorem maskBytes_length (key : Nat) (iv : List Nat) :
    ∀ i l, (maskBytes key iv i l).length = l.length := by
  intro i l
  induction l generalizing i with
  | nil => rfl
  | cons b t ih => simp [maskBytes, ih]

theorem maskBytes_maskBytes (key : Nat) (iv : List Nat) :
    ∀ i l, maskBytes key iv i (maskBytes key iv i l) = l := by
  intro i l
  induction l generalizing i with
  | nil => rfl
  | cons b t ih =>
      simp only [maskBytes, ih, List.cons.injEq, and_true]
      exact Nat.xor_cancel_right _ _

theorem xor_lt_256 {a b : Nat} (ha : a < 256) (hb : b < 256) : a ^^^ b < 256 :=
  Nat.bitwise_lt (n := 8) ha hb

theorem maskBytes_isBytes (key : Nat) (iv : List Nat) :
    ∀ i l, isBytes l → isBytes (maskBytes key iv i l) := by
  intro i l
  induction l generalizing i with
  | nil => intro _ b hb; simp [maskBytes] at hb
  | cons x t ih =>
      intro h b hb
      simp only [maskBytes, List.mem_cons] at hb
      rcases hb with h1 | h2
      · subst h1
        exact xor_lt_256 (h x (by simp)) (Nat.mod_lt _ (by omega))
      · exact ih (i + 1) (fun y hy => h y (by simp [hy])) b h2

theorem gcmTag_inj {key key2 : Nat} {iv iv2 body body2 : List Nat}
    (h : gcmTag key iv body = gcmTag key2 iv2 body2) :
    key = key2 ∧ iv = iv2 ∧ body = body2 := by
  unfold gcmTag at h
  rcases Nat.pair_eq_pair.mp h with ⟨h1, h2⟩
  rcases Nat.pair_eq_pair.mp h2 with ⟨h3, h4⟩
  exact ⟨h1, natListEncode_injective h3, natListEncode_injective h4⟩

theorem gcmDecrypt_gcmEncrypt (key : Nat) (iv pt : List Nat) :
    gcmDecrypt key iv (gcmEncrypt key iv pt) = some pt := by
  simp [gcmDecrypt, gcmEncrypt, maskBytes_maskBytes]

/-- Shared-secret point space of the ECDH model: the cyclic group of the
P-256 curve is modelled through its scalar arithmetic, i.e. as the additive
group of integers modulo the curve order (curve points are identified with
the discrete logarithms to a fixed generator). -/
def p256Order : Nat :=
  115792089210356248762697446949407573529996955224135760342422259061068512044369

/-- Curve point of the model (see p256Order). -/
abbrev ECPoint := ZMod p256Order

/-- Generator stand-in for the model group. -/
def basePoint : ECPoint := 2

/-- Public key corresponding to a private scalar, i.e. the scalar multiple of
the generator (models ECDH keygen on P-256, crypto.ts generateKeyPair). -/
def pubOf (priv : Nat) : ECPoint := (priv : ECPoint) * basePoint

/-- Key pair as produced by crypto.ts generateKeyPair: an ECDH P-256 pair
with extractable keys. -/
structure CryptoKeyPair where
  publicKey : ECPoint
  privateKey : Nat

/-- Validity of a key-agreement pair: the public key is the curve point
belonging to the private scalar. -/
def isValidKeyPair (kp : CryptoKeyPair) : Prop := kp.publicKey = pubOf kp.privateKey

/-- Source function deriveSharedSecret (crypto.ts): ECDH scalar
multiplication of the remote public point by the local private scalar,
yielding the 256-bit AES-GCM key (here the canonical value of the shared
point). -/
def deriveSharedSecret (privateKey : Nat) (publicKey : ECPoint) : Nat :=
  ((privateKey : ECPoint) * publicKey).val

/-- Wire form of an encrypted message as returned by encryptMessage: the
Base64 text of the masked ciphertext body and of the iv, plus the ideal
authentication tag (carried separately in the model because the
perfectly-binding tag is not a fixed-width byte field; in the platform it
is the final 16 bytes of the ciphertext buffer). -/
structure EncryptedPayload where
  ciphertext : List Nat
  ciphertextTag : Nat
  iv : List Nat

/-- Source function encryptMessage (crypto.ts): draws a fresh 12-byte iv
from the secure random source, AES-GCM-encrypts the encoded plaintext under
the shared key, and returns ciphertext and iv as Base64 text. -/
def encryptMessage (r : Rng) (sharedKey : Nat) (encodedText : List Nat) :
    EncryptedPayload × Rng :=
  let draw := getRandomValues 12 r
  let sealed := gcmEncrypt sharedKey draw.1 encodedText
  (⟨b64encode sealed.body, sealed.tag, b64encode draw.1⟩, draw.2)

/-- Source function decryptMessage (crypto.ts): decodes the Base64
ciphertext and iv and AES-GCM-decrypts under the shared key, failing on any
decode or tag error. -/
def decryptMessage (sharedKey : Nat) (ciphertextB64 : List Nat) (tag : Nat)
    (ivB64 : List Nat) : Option (List Nat) :=
  (b64decode ciphertextB64).bind fun body =>
    (b64decode ivB64).bind fun iv =>
      gcmDecrypt sharedKey iv ⟨body, tag⟩

/-- Modelled from the spec: deriveKeyFromPassword (PasswordKeyDeriver,
spec 4.2), whose crypto.ts implementation is not among the provided source
files (only its call sites in Auth.tsx are).  PBKDF2 with per-account salt
is modelled as an ideal, deterministic, collision-free derivation from the
password bytes and the salt bytes. -/
def deriveKeyFromPassword (password salt : List Nat) : Nat :=
  Nat.pair (natListEncode password) (natListEncode salt)

/-- Wrapped private-key record as returned by wrapPrivateKey: Base64 text of
the wrapped key bytes and of the iv, plus the ideal tag (see
EncryptedPayload). -/
structure WrappedKeyRecord where
  wrappedKeyBase64 : List Nat
  wrappedKeyTag : Nat
  ivBase64 : List Nat

/-- Modelled from the spec: wrapPrivateKey (KeyWrapper, spec 4.3), whose
crypto.ts implementation is not among the provided source files.  The
private key is exported to its binary encoding, a fresh 96-bit iv is drawn,
and the bytes are AES-GCM-encrypted under the wrapping key. -/
def wrapPrivateKey (r : Rng) (privateKey : Nat) (wrapperKey : Nat) :
    WrappedKeyRecord × Rng :=
  let draw := getRandomValues 12 r
  let sealed := gcmEncrypt wrapperKey draw.1 (natToBytes privateKey)
  (⟨b64encode sealed.body, sealed.tag, b64encode draw.1⟩, draw.2)

/-- Modelled from the spec: unwrapPrivateKey (KeyWrapper, spec 4.3), whose
crypto.ts implementation is not among the provided source files.  Decodes
the record, AES-GCM-decrypts under the wrapping key (failing on a tag
mismatch) and re-imports the raw bytes as a private key. -/
def unwrapPrivateKey (wrappedKeyBase64 : List Nat) (tag : Nat)
    (wrapperKey : Nat) (ivBase64 : List Nat) : Option Nat :=
  (b64decode wrappedKeyBase64).bind fun body =>
    (b64decode ivBase64).bind fun iv =>
      (gcmDecrypt wrapperKey iv ⟨body, tag⟩).map bytesToNat

/-- Modelled from the spec: the ECDSA public key belonging to a signing
private scalar (KeyPairFactory, spec 4.1; generateEcdsaKeyPair is not among
the provided source files).  Only injectivity of the private-to-public map
matters to the claims. -/
def signPubOf (priv : Nat) : Nat := priv + 1

/-- Modelled from the spec: sign (MessageSigner, spec 4.6), whose crypto.ts
implementation is not among the provided source files.  ECDSA over the
ciphertext bytes is modelled as an ideal (perfectly unforgeable) signature
determined by the signing key and the exact signed bytes. -/
def signMessage (priv : Nat) (ciphertext : List Nat) : Nat :=
  Nat.pair priv (natListEncode ciphertext)

/-- Modelled from the spec: verify (MessageVerifier, spec 4.6), whose
crypto.ts implementation is not among the provided source files.  Accepts
exactly the signatures produced with the matching private key over exactly
these ciphertext bytes. -/
def verifySignature (pub : Nat) (ciphertext : List Nat) (sig : Nat) : Bool :=
  decide (signPubOf (Nat.unpair sig).1 = pub ∧
    (Nat.unpair sig).2 = natListEncode ciphertext)

/-- Registration payload assembled by the registration branch of
handleSubmit (Auth.tsx, dual-key version): public halves, wrapped private
halves, one key salt and one iv per wrap.  The record has no separate salt
field for the signing wrapper, mirroring the users table (schema.ts). -/
structure RegistrationPayload where
  publicKey : List Nat
  encryptedPrivateKey : List Nat
  encryptedPrivateKeyTag : Nat
  keyIv : List Nat
  keySalt : List Nat
  publicSigningKey : List Nat
  encryptedSigningPrivateKey : List Nat
  encryptedSigningPrivateKeyTag : Nat
  signingKeyIv : List Nat

/-- Source function exportPublicKey (crypto.ts): raw export of the public
point, Base64-encoded. -/
def exportPublicKey (p : ECPoint) : List Nat := b64encode (natToBytes p.val)

/-- Registration branch of handleSubmit (Auth.tsx): generates the two key
pairs (their private scalars are the explicit arguments here, key
generation randomness being outside the wrapped-record claims), draws one
16-byte salt, derives a single wrapping key from the password and that
salt, wraps both private keys under that one key (each wrap drawing its own
fresh iv), and packages the payload. -/
def registerFlow (r : Rng) (password : List Nat) (ecdhPriv ecdsaPriv : Nat) :
    RegistrationPayload × Rng :=
  let saltDraw := getRandomValues 16 r
  let wrapperKey := deriveKeyFromPassword password saltDraw.1
  let ecdhWrapped := wrapPrivateKey saltDraw.2 ecdhPriv wrapperKey
  let ecdsaWrapped := wrapPrivateKey ecdhWrapped.2 ecdsaPriv wrapperKey
  (⟨exportPublicKey (pubOf ecdhPriv),
    ecdhWrapped.1.wrappedKeyBase64, ecdhWrapped.1.wrappedKeyTag, ecdhWrapped.1.ivBase64,
    b64encode saltDraw.1,
    b64encode (natToBytes (signPubOf ecdsaPriv)),
    ecdsaWrapped.1.wrappedKeyBase64, ecdsaWrapped.1.wrappedKeyTag, ecdsaWrapped.1.ivBase64⟩,
    ecdsaWrapped.2)

/-- Message row as inserted into the messages table by the sendMessage
handler (server.ts with signatures; schema.ts).  Identifier and text
columns are character sequences. -/
structure MessageRow where
  senderId : List Nat
  receiverId : List Nat
  ciphertext : List Nat
  iv : List Nat
  signature : List Nat

/-- Payload of a sendMessage socket event (server.ts). -/
structure SendMessagePayload where
  receiverId : List Nat
  ciphertext : List Nat
  iv : List Nat
  signature : List Nat

/-- Server state visible to the socket handlers: the connectedUsers map
(socket id to user id), the messages store, and the list of receiveMessage
broadcasts emitted so far. -/
structure ServerState where
  connectedUsers : List (List Nat × List Nat)
  messages : List MessageRow
  broadcasts : List MessageRow

/-- Lookup in the connectedUsers map (JS Map.get). -/
def mapGet : List (List Nat × List Nat) → List Nat → Option (List Nat)
  | [], _ => none
  | (k, v) :: t, k2 => if k = k2 then some v else mapGet t k2

/-- Insert or replace in the connectedUsers map (JS Map.set). -/
def mapSet : List (List Nat × List Nat) → List Nat → List Nat → List (List Nat × List Nat)
  | [], k, v => [(k, v)]
  | (k1, v1) :: t, k, v => if k1 = k then (k, v) :: t else (k1, v1) :: mapSet t k v

/-- registerUser handler (server.ts): records the user id under the socket
id. -/
def handleRegisterUser (st : ServerState) (sockId userId : List Nat) : ServerState :=
  { st with connectedUsers := mapSet st.connectedUsers sockId userId }

/-- sendMessage handler (server.ts): looks the sender up in connectedUsers;
on a missing entry (or the falsy empty id, as the JS truthiness test also
rejects) it returns with the state unchanged, otherwise it inserts the row
into the messages store and broadcasts it as a receiveMessage event. -/
def handleSendMessage (st : ServerState) (sockId : List Nat)
    (data : SendMessagePayload) : ServerState :=
  match mapGet st.connectedUsers sockId with
  | none => st
  | some senderId =>
      if senderId = [] then st
      else
        let row : MessageRow :=
          ⟨senderId, data.receiverId, data.ciphertext, data.iv, data.signature⟩
        { st with messages := st.messages ++ [row], broadcasts := st.broadcasts ++ [row] }

/-- Flips bit j of the byte at position i (identity beyond the length).
Used to state single-bit tampering. -/
def flipAt (l : List Nat) (i j : Nat) : List Nat :=
  match l, i with
  | [], _ => []
  | b :: t, 0 => (b ^^^ 2 ^ j) :: t
  | b :: t, Nat.succ i2 => b :: flipAt t i2 j

theorem xor_two_pow_ne (a j : Nat) : a ^^^ 2 ^ j ≠ a := by
  intro h
  have h2 : a ^^^ 2 ^ j ^^^ a = a ^^^ a := by rw [h]
  rw [Nat.xor_comm a (2 ^ j), Nat.xor_assoc, Nat.xor_self, Nat.xor_zero] at h2
  have h3 : 0 < 2 ^ j := Nat.pos_pow_of_pos j (by omega)
  omega

theorem flipAt_ne : ∀ (l : List Nat) (i j : Nat), i < l.length → flipAt l i j ≠ l := by
  intro l
  induction l with
  | nil => intro i j h; simp at h
  | cons b t ih =>
      intro i j h
      cases i with
      | zero =>
          simp only [flipAt, ne_eq, List.cons.injEq, not_and]
          intro hb
          exact absurd hb (xor_two_pow_ne b j)
      | succ i2 =>
          simp only [flipAt, ne_eq, List.cons.injEq, true_and]
          exact ih i2 j (by simpa using h)

theorem two_pow_lt_256 {j : Nat} (hj : j < 8) : 2 ^ j < 256 := by
  interval_cases j <;> decide

theorem flipAt_isBytes : ∀ (l : List Nat) (i j : Nat), j < 8 → isBytes l →
    isBytes (flipAt l i j) := by
  intro l
  induction l with
  | nil => intro i j _ _; intro b hb; simp [flipAt] at hb
  | cons x t ih =>
      intro i j hj h
      cases i with
      | zero =>
          intro b hb
          simp only [flipAt, List.mem_cons] at hb
          rcases hb with h1 | h2
          · subst h1; exact xor_lt_256 (h x (by simp)) (two_pow_lt_256 hj)
          · exact h b (by simp [h2])
      | succ i2 =>
          intro b hb
          simp only [flipAt, List.mem_cons] at hb
          rcases hb with h1 | h2
          · subst h1; exact h b (by simp)
          · exact ih i2 j hj (fun y hy => h y (by simp [hy])) b h2

/-- Claim C8: for every byte sequence x, including the empty sequence,
decoding the text encoding of x returns exactly x, with no truncation and
no reordering: base64ToArrayBuffer (arrayBufferToBase64 x) = x. -/
theorem C8_base64_roundtrip (x : List Nat) (h : isBytes x) :
    base64ToArrayBuffer (arrayBufferToBase64 x) = some x :=
  b64_roundtrip x h

theorem C8_base64_roundtrip_witness :
    isBytes [0, 1, 77, 255] ∧
      base64ToArrayBuffer (arrayBufferToBase64 [0, 1, 77, 255]) = some [0, 1, 77, 255] :=
  ⟨by decide, C8_base64_roundtrip [0, 1, 77, 255] (by decide)⟩

/-- Claim C1: for every shared secret s and plaintext p (as its encoded byte
sequence), encrypting p under s with encryptMessage and then decrypting the
resulting ciphertext, tag and iv under the same s with decryptMessage
returns exactly p. -/
theorem C1_aead_roundtrip (r : Rng) (s : Nat) (p : List Nat) (h : isBytes p) :
    decryptMessage s (encryptMessage r s p).1.ciphertext
      (encryptMessage r s p).1.ciphertextTag (encryptMessage r s p).1.iv = some p := by
  have hiv : isBytes (getRandomValues 12 r).1 := getRandomValues_isBytes 12 r
  have hbody : isBytes (gcmEncrypt s (getRandomValues 12 r).1 p).body :=
    maskBytes_isBytes s (getRandomValues 12 r).1 0 p h
  simp only [encryptMessage, decryptMessage]
  rw [b64_roundtrip _ hbody, b64_roundtrip _ hiv]
  simp only [Option.some_bind]
  exact gcmDecrypt_gcmEncrypt s (getRandomValues 12 r).1 p

theorem C1_aead_roundtrip_witness :
    isBytes [104, 101, 108, 108, 111] ∧
      decryptMessage 7 (encryptMessage ⟨fun n => n, 0⟩ 7 [104, 101, 108, 108, 111]).1.ciphertext
        (encryptMessage ⟨fun n => n, 0⟩ 7 [104, 101, 108, 108, 111]).1.ciphertextTag
        (encryptMessage ⟨fun n => n, 0⟩ 7 [104, 101, 108, 108, 111]).1.iv =
        some [104, 101, 108, 108, 111] :=
  ⟨by decide, C1_aead_roundtrip ⟨fun n => n, 0⟩ 7 [104, 101, 108, 108, 111] (by decide)⟩

/-- Claim C2: for every two valid key-agreement key pairs A and B,
deriveSharedSecret (A.privateKey, B.publicKey) produces a symmetric key
bit-identical to deriveSharedSecret (B.privateKey, A.publicKey). -/
theorem C2_shared_secret_symmetric (A B : CryptoKeyPair)
    (hA : isValidKeyPair A) (hB : isValidKeyPair B) :
    deriveSharedSecret A.privateKey B.publicKey =
      deriveSharedSecret B.privateKey A.publicKey := by
  unfold deriveSharedSecret
  rw [hA, hB]
  unfold pubOf
  rw [mul_left_comm]

theorem C2_shared_secret_symmetric_witness :
    isValidKeyPair ⟨pubOf 3, 3⟩ ∧ isValidKeyPair ⟨pubOf 9, 9⟩ ∧
      deriveSharedSecret (CryptoKeyPair.privateKey ⟨pubOf 3, 3⟩) (CryptoKeyPair.publicKey ⟨pubOf 9, 9⟩) =
        deriveSharedSecret (CryptoKeyPair.privateKey ⟨pubOf 9, 9⟩) (CryptoKeyPair.publicKey ⟨pubOf 3, 3⟩) :=
  ⟨rfl, rfl, C2_shared_secret_symmetric ⟨pubOf 3, 3⟩ ⟨pubOf 9, 9⟩ rfl rfl⟩

theorem wrap_unwrap_aux (r : Rng) (k w : Nat) :
    unwrapPrivateKey (wrapPrivateKey r k w).1.wrappedKeyBase64
      (wrapPrivateKey r k w).1.wrappedKeyTag w (wrapPrivateKey r k w).1.ivBase64 = some k := by
  have hiv : isBytes (getRandomValues 12 r).1 := getRandomValues_isBytes 12 r
  have hbody : isBytes (gcmEncrypt w (getRandomValues 12 r).1 (natToBytes k)).body :=
    maskBytes_isBytes w (getRandomValues 12 r).1 0 (natToBytes k) (natToBytes_isBytes k)
  simp only [wrapPrivateKey, unwrapPrivateKey]
  rw [b64_roundtrip _ hbody, b64_roundtrip _ hiv]
  simp [gcmEncrypt, gcmDecrypt, maskBytes_maskBytes, bytesToNat_natToBytes]

/-- Claim C3: for every valid private key k and every wrapping key w,
unwrapping the record produced by wrapping k under w, using the same w,
yields a private key equal to k. -/
theorem C3_wrap_roundtrip (r : Rng) (k w : Nat) :
    unwrapPrivateKey (wrapPrivateKey r k w).1.wrappedKeyBase64
      (wrapPrivateKey r k w).1.wrappedKeyTag w (wrapPrivateKey r k w).1.ivBase64 = some k :=
  wrap_unwrap_aux r k w

/-- Claim C4: for every private key, salt, and pair of distinct passwords pw
and pw2, unwrapping a record wrapped under deriveKeyFromPassword (pw, salt)
using the key deriveKeyFromPassword (pw2, salt) fails (tag verification)
and never returns a silently-wrong plaintext key. -/
theorem C4_wrong_password_rejected (r : Rng) (k : Nat) (pw pw2 salt : List Nat)
    (hne : pw ≠ pw2) :
    unwrapPrivateKey (wrapPrivateKey r k (deriveKeyFromPassword pw salt)).1.wrappedKeyBase64
      (wrapPrivateKey r k (deriveKeyFromPassword pw salt)).1.wrappedKeyTag
      (deriveKeyFromPassword pw2 salt)
      (wrapPrivateKey r k (deriveKeyFromPassword pw salt)).1.ivBase64 = none := by
  have hw : deriveKeyFromPassword pw salt ≠ deriveKeyFromPassword pw2 salt := by
    intro h
    exact hne (natListEncode_injective (Nat.pair_eq_pair.mp h).1)
  have hiv : isBytes (getRandomValues 12 r).1 := getRandomValues_isBytes 12 r
  have hbody : isBytes (gcmEncrypt (deriveKeyFromPassword pw salt)
      (getRandomValues 12 r).1 (natToBytes k)).body :=
    maskBytes_isBytes _ (getRandomValues 12 r).1 0 (natToBytes k) (natToBytes_isBytes k)
  simp only [wrapPrivateKey, unwrapPrivateKey]
  rw [b64_roundtrip _ hbody, b64_roundtrip _ hiv]
  simp only [Option.some_bind, gcmEncrypt, gcmDecrypt]
  rw [if_neg]
  · rfl
  · intro heq
    exact hw (gcmTag_inj heq).1

theorem C4_wrong_password_rejected_witness :
    ([3] : List Nat) ≠ [4] ∧
      unwrapPrivateKey
        (wrapPrivateKey ⟨fun n => n, 0⟩ 11 (deriveKeyFromPassword [3] [5])).1.wrappedKeyBase64
        (wrapPrivateKey ⟨fun n => n, 0⟩ 11 (deriveKeyFromPassword [3] [5])).1.wrappedKeyTag
        (deriveKeyFromPassword [4] [5])
        (wrapPrivateKey ⟨fun n => n, 0⟩ 11 (deriveKeyFromPassword [3] [5])).1.ivBase64 = none :=
  ⟨by decide, C4_wrong_password_rejected ⟨fun n => n, 0⟩ 11 [3] [4] [5] (by decide)⟩

/-- Claim C6: for every shared secret, plaintext and encrypted output,
flipping any single bit of a ciphertext-body byte, of the authentication
tag, or of an iv byte makes decryptMessage under the same secret fail
(return none); it never returns altered plaintext. -/
theorem C6_tamper_detection (key : Nat) (iv pt : List Nat) (i j j2 j3 : Nat)
    (i2 : Nat) (hpt : isBytes pt) (hiv : isBytes iv) (hi : i < pt.length)
    (hj : j < 8) (hi2 : i2 < iv.length) (hj2 : j2 < 8) :
    decryptMessage key (b64encode (flipAt (gcmEncrypt key iv pt).body i j))
        (gcmEncrypt key iv pt).tag (b64encode iv) = none ∧
    decryptMessage key (b64encode (gcmEncrypt key iv pt).body)
        ((gcmEncrypt key iv pt).tag ^^^ 2 ^ j3) (b64encode iv) = none ∧
    decryptMessage key (b64encode (gcmEncrypt key iv pt).body)
        (gcmEncrypt key iv pt).tag (b64encode (flipAt iv i2 j2)) = none := by
  have hbody : isBytes (gcmEncrypt key iv pt).body :=
    maskBytes_isBytes key iv 0 pt hpt
  have hlen : (gcmEncrypt key iv pt).body.length = pt.length :=
    maskBytes_length key iv 0 pt
  have htag : (gcmEncrypt key iv pt).tag = gcmTag key iv (gcmEncrypt key iv pt).body := rfl
  refine ⟨?_, ?_, ?_⟩
  · have hflip : isBytes (flipAt (gcmEncrypt key iv pt).body i j) :=
      flipAt_isBytes _ i j hj hbody
    have hne : flipAt (gcmEncrypt key iv pt).body i j ≠ (gcmEncrypt key iv pt).body :=
      flipAt_ne _ i j (by omega)
    simp only [decryptMessage]
    rw [b64_roundtrip _ hflip, b64_roundtrip _ hiv]
    simp only [Option.some_bind, gcmDecrypt]
    rw [if_neg]
    intro heq
    rw [htag] at heq
    exact hne ((gcmTag_inj heq).2.2).symm
  · simp only [decryptMessage]
    rw [b64_roundtrip _ hbody, b64_roundtrip _ hiv]
    simp only [Option.some_bind, gcmDecrypt]
    rw [if_neg]
    intro heq
    rw [← htag] at heq
    exact xor_two_pow_ne (gcmEncrypt key iv pt).tag j3 heq
  · have hflip : isBytes (flipAt iv i2 j2) := flipAt_isBytes iv i2 j2 hj2 hiv
    have hne : flipAt iv i2 j2 ≠ iv := flipAt_ne iv i2 j2 hi2
    simp only [decryptMessage]
    rw [b64_roundtrip _ hbody, b64_roundtrip _ hflip]
    simp only [Option.some_bind, gcmDecrypt]
    rw [if_neg]
    intro heq
    rw [htag] at heq
    exact hne ((gcmTag_inj heq).2.1).symm

theorem C6_tamper_detection_witness :
    isBytes [1, 2] ∧ isBytes [9] ∧ 0 < ([1, 2] : List Nat).length ∧ 0 < 8 ∧
      0 < ([9] : List Nat).length ∧ 1 < 8 ∧
      (decryptMessage 7 (b64encode (flipAt (gcmEncrypt 7 [9] [1, 2]).body 0 0))
          (gcmEncrypt 7 [9] [1, 2]).tag (b64encode [9]) = none ∧
        decryptMessage 7 (b64encode (gcmEncrypt 7 [9] [1, 2]).body)
          ((gcmEncrypt 7 [9] [1, 2]).tag ^^^ 2 ^ 5) (b64encode [9]) = none ∧
        decryptMessage 7 (b64encode (gcmEncrypt 7 [9] [1, 2]).body)
          (gcmEncrypt 7 [9] [1, 2]).tag (b64encode (flipAt [9] 0 1)) = none) :=
  ⟨by decide, by decide, by decide, by decide, by decide, by decide,
    C6_tamper_detection 7 [9] [1, 2] 0 0 1 5 0 (by decide) (by decide) (by decide)
      (by decide) (by decide) (by decide)⟩

/-- Claim C7: every encryptMessage call returns an iv that is exactly 12
bytes (96 bits) drawn freshly from the secure random source at that call:
the iv is the draw at the source's current position, is independent of the
key and plaintext arguments (no caller-supplied iv), and a subsequent call
with the returned source state takes its iv from the next, disjoint
12-byte draw. -/
theorem C7_iv_fresh_per_call (r : Rng) (k : Nat) (p : List Nat) (k2 : Nat) (p2 : List Nat) :
    (encryptMessage r k p).1.iv = b64encode (getRandomValues 12 r).1 ∧
      (getRandomValues 12 r).1.length = 12 ∧
      isBytes (getRandomValues 12 r).1 ∧
      (encryptMessage r k2 p2).1.iv = (encryptMessage r k p).1.iv ∧
      (encryptMessage r k p).2.pos = r.pos + 12 ∧
      (encryptMessage (encryptMessage r k p).2 k2 p2).1.iv =
        b64encode (getRandomValues 12 ⟨r.tape, r.pos + 12⟩).1 :=
  ⟨rfl, getRandomValues_length 12 r, getRandomValues_isBytes 12 r, rfl, rfl, rfl⟩

/-- Claim C9: for every signing key pair and ciphertext, verification of a
genuine signature over the ciphertext succeeds, while verification fails
whenever the ciphertext was altered after signing or the signature was
produced by a different signing key pair. -/
theorem C9_signature_binding (priv : Nat) (ct ct2 : List Nat) (priv2 : Nat)
    (hct : ct2 ≠ ct) (hpriv : priv2 ≠ priv) :
    verifySignature (signPubOf priv) ct (signMessage priv ct) = true ∧
      verifySignature (signPubOf priv) ct2 (signMessage priv ct) = false ∧
      verifySignature (signPubOf priv2) ct (signMessage priv ct) = false := by
  refine ⟨?_, ?_, ?_⟩
  · simp [verifySignature, signMessage, Nat.unpair_pair]
  · apply decide_eq_false
    intro hcontra
    rw [signMessage, Nat.unpair_pair] at hcontra
    exact hct (natListEncode_injective hcontra.2).symm
  · apply decide_eq_false
    intro hcontra
    rw [signMessage, Nat.unpair_pair] at hcontra
    have h1 : signPubOf priv = signPubOf priv2 := hcontra.1
    rw [signPubOf, signPubOf] at h1
    omega

theorem C9_signature_binding_witness :
    ([3] : List Nat) ≠ [2] ∧ (4 : Nat) ≠ 1 ∧
      (verifySignature (signPubOf 1) [2] (signMessage 1 [2]) = true ∧
        verifySignature (signPubOf 1) [3] (signMessage 1 [2]) = false ∧
        verifySignature (signPubOf 4) [2] (signMessage 1 [2]) = false) :=
  ⟨by decide, by decide, C9_signature_binding 1 [2] [3] 4 (by decide) (by decide)⟩

/-- Claim C10: a sendMessage event from a socket whose id has no entry in
the connectedUsers map leaves the server state unchanged: no row is
inserted into the messages store and no receiveMessage broadcast is
emitted. -/
theorem C10_unregistered_sender_ignored (st : ServerState) (sockId : List Nat)
    (data : SendMessagePayload) (h : mapGet st.connectedUsers sockId = none) :
    handleSendMessage st sockId data = st := by
  simp [handleSendMessage, h]

theorem C10_unregistered_sender_ignored_witness :
    mapGet (ServerState.connectedUsers ⟨[], [], []⟩) [1] = none ∧
      handleSendMessage ⟨[], [], []⟩ [1] ⟨[2], [3], [4], [5]⟩ = ⟨[], [], []⟩ :=
  ⟨rfl, C10_unregistered_sender_ignored ⟨[], [], []⟩ [1] ⟨[2], [3], [4], [5]⟩ rfl⟩

/-- Claim C5 counterexample: in the registration flow the two wrapped
records DO share key-derivation salt material.  At a concrete registration
the payload carries a single keySalt, and the one wrapping key derived
from the password and that single salt unwraps BOTH the key-agreement
record and the signing record (the tag binds the wrapping key, hence the
salt, so success of both unwraps under one derived key exhibits the
shared salt). -/
theorem C5_salt_unique_counterexample :
    (registerFlow ⟨fun _ => 0, 0⟩ [7] 5 9).1.keySalt =
        b64encode [0, 0, 0, 0, 0, 0, 0, 0, 0, 0, 0, 0, 0, 0, 0, 0] ∧
      unwrapPrivateKey (registerFlow ⟨fun _ => 0, 0⟩ [7] 5 9).1.encryptedPrivateKey
        (registerFlow ⟨fun _ => 0, 0⟩ [7] 5 9).1.encryptedPrivateKeyTag
        (deriveKeyFromPassword [7] [0, 0, 0, 0, 0, 0, 0, 0, 0, 0, 0, 0, 0, 0, 0, 0])
        (registerFlow ⟨fun _ => 0, 0⟩ [7] 5 9).1.keyIv = some 5 ∧
      unwrapPrivateKey (registerFlow ⟨fun _ => 0, 0⟩ [7] 5 9).1.encryptedSigningPrivateKey
        (registerFlow ⟨fun _ => 0, 0⟩ [7] 5 9).1.encryptedSigningPrivateKeyTag
        (deriveKeyFromPassword [7] [0, 0, 0, 0, 0, 0, 0, 0, 0, 0, 0, 0, 0, 0, 0, 0])
        (registerFlow ⟨fun _ => 0, 0⟩ [7] 5 9).1.signingKeyIv = some 9 :=
  ⟨rfl, rfl, rfl⟩

/-- Claim C5 as amended: each registration draws one fresh 16-byte salt and
derives a single wrapping key from the password and that salt; both the
key-agreement and the signing private-key records are wrapped under that
same salt-derived key (they share the account's salt material), while each
wrap uses its own fresh 12-byte iv taken from a separate draw of the
random source. -/
theorem C5_single_salt_fresh_ivs (r : Rng) (pw : List Nat) (k1 k2 : Nat) :
    (registerFlow r pw k1 k2).1.keySalt = b64encode (getRandomValues 16 r).1 ∧
      unwrapPrivateKey (registerFlow r pw k1 k2).1.encryptedPrivateKey
        (registerFlow r pw k1 k2).1.encryptedPrivateKeyTag
        (deriveKeyFromPassword pw (getRandomValues 16 r).1)
        (registerFlow r pw k1 k2).1.keyIv = some k1 ∧
      unwrapPrivateKey (registerFlow r pw k1 k2).1.encryptedSigningPrivateKey
        (registerFlow r pw k1 k2).1.encryptedSigningPrivateKeyTag
        (deriveKeyFromPassword pw (getRandomValues 16 r).1)
        (registerFlow r pw k1 k2).1.signingKeyIv = some k2 ∧
      (registerFlow r pw k1 k2).1.keyIv =
        b64encode (getRandomValues 12 (getRandomValues 16 r).2).1 ∧
      (registerFlow r pw k1 k2).1.signingKeyIv =
        b64encode (getRandomValues 12 (getRandomValues 12 (getRandomValues 16 r).2).2).1 := by
  refine ⟨rfl, ?_, ?_, rfl, rfl⟩
  · exact wrap_unwrap_aux (getRandomValues 16 r).2 k1
      (deriveKeyFromPassword pw (getRandomValues 16 r).1)
  · exact wrap_unwrap_aux
      (wrapPrivateKey (getRandomValues 16 r).2 k1
        (deriveKeyFromPassword pw (getRandomValues 16 r).1)).2 k2
      (deriveKeyFromPassword pw (getRandomValues 16 r).1)
